import Mathlib

/-!
Verification of the zod-currency provider and validation logic.

The development shallowly embeds the three currency-code providers
(`FiatCurrencyProvider`, `CryptocurrencyProvider`, `MultiCurrencyProvider`
from src/providers.ts) and the validation pipeline built by
`createCurrencySchema` (src/currency.ts).

Modelling conventions:
- A JavaScript `Set<string>` is a duplicate-free list that preserves first
  insertion order (`new Set(list)` dedups keeping the first occurrence;
  iteration is in insertion order).
- `Math.max(...lengths)` is `jsMax`, returning `Option Nat` where `none`
  stands for the JavaScript value `-Infinity` produced on an empty array.
- JavaScript numbers used by the filter options are modelled as `ℚ`;
  `Number.isInteger` is `Rat.isInt`, `Math.floor` is `Int.floor`.
- `String.prototype.toUpperCase()` is per-character ASCII upper-casing
  (`toUpperCase` below), which is what it does on currency-code inputs.
- A thrown construction error is `Except.error` with the thrown message; the
  zod pipeline's per-input outcome is `Except String String` where `Except.ok`
  carries the transformed (uppercased) code and `Except.error` carries the
  first failing check's message, in zod's check order (min, max, refine).
-/

/-- One step of inserting into a JS `Set` modelled as a list: append the
element only when it is not already present (providers.ts lines 209-213). -/
def addCode (acc : List String) (c : String) : List String :=
  if c ∈ acc then acc else acc ++ [c]

/-- JS `new Set(list)`: first-occurrence dedup preserving insertion order. -/
def jsSet (l : List String) : List String :=
  l.foldl addCode []

/-- One step of JS `Math.max` folding over a list, with `none` as
`-Infinity`. -/
def maxStep (acc : Option Nat) (n : Nat) : Option Nat :=
  some (match acc with | none => n | some m => max m n)

/-- JS `Math.max(...l)`: `none` models the `-Infinity` result on `[]`. -/
def jsMax (l : List Nat) : Option Nat :=
  l.foldl maxStep none

/-- JS `String.prototype.toUpperCase` on currency-code strings: map the ASCII
upper-casing over the characters. -/
def toUpperCase (s : String) : String :=
  String.mk (s.data.map Char.toUpper)

/-- A constructed currency provider: the state stored by the three provider
classes of providers.ts, plus the fact (inherent to JS `Set`) that the stored
code list has no duplicates. `maxLength : Option Nat` stores the result of
`Math.max` over the code lengths, `none` standing for `-Infinity`. -/
structure Provider where
  validCodes : List String
  maxLength : Option Nat
  name : String
  nodup : validCodes.Nodup

theorem mem_addCode (acc : List String) (c x : String) :
    x ∈ addCode acc c ↔ x ∈ acc ∨ x = c := by
  unfold addCode
  by_cases h : c ∈ acc
  · simp only [if_pos h]
    constructor
    · exact fun hx => Or.inl hx
    · rintro (hx | rfl)
      · exact hx
      · exact h
  · simp [if_neg h]

theorem addCode_nodup (acc : List String) (c : String) (h : acc.Nodup) :
    (addCode acc c).Nodup := by
  unfold addCode
  by_cases hc : c ∈ acc
  · simpa [if_pos hc]
  · simp only [if_neg hc]
    exact List.Nodup.append h (List.nodup_singleton c) (by simpa using hc)

theorem mem_foldl_addCode (l : List String) :
    ∀ (acc : List String) (x : String),
      x ∈ l.foldl addCode acc ↔ x ∈ acc ∨ x ∈ l := by
  induction l with
  | nil => simp
  | cons a l ih =>
    intro acc x
    simp only [List.foldl_cons, ih, mem_addCode, List.mem_cons]
    tauto

theorem foldl_addCode_nodup (l : List String) :
    ∀ acc : List String, acc.Nodup → (l.foldl addCode acc).Nodup := by
  induction l with
  | nil => intro acc h; simpa
  | cons a l ih =>
    intro acc h
    exact ih (addCode acc a) (addCode_nodup acc a h)

theorem jsSet_nodup (l : List String) : (jsSet l).Nodup :=
  foldl_addCode_nodup l [] List.nodup_nil

theorem mem_jsSet (l : List String) (x : String) : x ∈ jsSet l ↔ x ∈ l := by
  simp [jsSet, mem_foldl_addCode]

theorem foldl_addCode_append (l : List String) :
    ∀ acc : List String, l.Nodup → (∀ x ∈ l, x ∉ acc) →
      l.foldl addCode acc = acc ++ l := by
  induction l with
  | nil => simp
  | cons a l ih =>
    intro acc hnd hdis
    have ha : a ∉ acc := hdis a (List.mem_cons_self a l)
    have step : addCode acc a = acc ++ [a] := by simp [addCode, ha]
    rw [List.foldl_cons, step,
      ih (acc ++ [a]) hnd.of_cons (by
        intro x hx
        simp only [List.mem_append, List.mem_singleton]
        rintro (hxa | rfl)
        · exact hdis x (List.mem_cons_of_mem a hx) hxa
        · exact (List.nodup_cons.mp hnd).1 hx)]
    simp

theorem jsSet_eq_self (l : List String) (h : l.Nodup) : jsSet l = l := by
  unfold jsSet
  rw [foldl_addCode_append l [] h (by simp)]
  simp

theorem foldl_maxStep_some (l : List Nat) :
    ∀ m : Nat, l.foldl maxStep (some m) = some (l.foldl max m) := by
  induction l with
  | nil => intro m; rfl
  | cons a l ih =>
    intro m
    simp only [List.foldl_cons]
    exact ih (max m a)

theorem seed_le_foldl_max (l : List Nat) :
    ∀ m : Nat, m ≤ l.foldl max m := by
  induction l with
  | nil => intro m; simp
  | cons a l ih =>
    intro m
    exact le_trans (le_max_left m a) (ih (max m a))

theorem mem_le_foldl_max (l : List Nat) :
    ∀ m : Nat, ∀ a ∈ l, a ≤ l.foldl max m := by
  induction l with
  | nil => simp
  | cons b l ih =>
    intro m a ha
    rcases List.mem_cons.mp ha with rfl | ha
    · exact le_trans (le_max_right m a) (seed_le_foldl_max l (max m a))
    · exact ih (max m b) a ha

theorem foldl_max_mem (l : List Nat) :
    ∀ m : Nat, l.foldl max m = m ∨ l.foldl max m ∈ l := by
  induction l with
  | nil => intro m; simp
  | cons a l ih =>
    intro m
    rcases ih (max m a) with h | h
    · rw [List.foldl_cons, h]
      rcases max_choice m a with hm | hm
      · exact Or.inl hm
      · exact Or.inr (by rw [hm]; exact List.mem_cons_self a l)
    · exact Or.inr (List.mem_cons_of_mem a h)

theorem jsMax_nil : jsMax [] = none := rfl

theorem jsMax_cons (a : Nat) (l : List Nat) :
    jsMax (a :: l) = some (l.foldl max a) := by
  unfold jsMax
  rw [List.foldl_cons]
  exact foldl_maxStep_some l a

theorem jsMax_eq_none_iff (l : List Nat) : jsMax l = none ↔ l = [] := by
  cases l with
  | nil => simp [jsMax_nil]
  | cons a l => simp [jsMax_cons]

theorem jsMax_le (l : List Nat) (m : Nat) (h : jsMax l = some m) :
    ∀ a ∈ l, a ≤ m := by
  cases l with
  | nil => simp
  | cons b l =>
    rw [jsMax_cons] at h
    obtain rfl : l.foldl max b = m := Option.some_injective _ h
    intro a ha
    rcases List.mem_cons.mp ha with rfl | ha
    · exact seed_le_foldl_max l a
    · exact mem_le_foldl_max l b a ha

theorem jsMax_mem (l : List Nat) (m : Nat) (h : jsMax l = some m) : m ∈ l := by
  cases l with
  | nil => simp [jsMax_nil] at h
  | cons b l =>
    rw [jsMax_cons] at h
    obtain rfl : l.foldl max b = m := Option.some_injective _ h
    rcases foldl_max_mem l b with h2 | h2
    · rw [h2]; exact List.mem_cons_self b l
    · exact List.mem_cons_of_mem b h2

theorem jsMax_of_ne_nil (l : List Nat) (h : l ≠ []) : ∃ m, jsMax l = some m := by
  cases l with
  | nil => exact absurd rfl h
  | cons a l => exact ⟨l.foldl max a, jsMax_cons a l⟩

theorem char_toNat_ofNat (n : ℕ) (h : n.isValidChar) : (Char.ofNat n).toNat = n := by
  simp [Char.ofNat, h, Char.ofNatAux, Char.toNat, UInt32.toNat, BitVec.toNat_ofNatLt]

theorem char_toUpper_idem (c : Char) :
    Char.toUpper (Char.toUpper c) = Char.toUpper c := by
  unfold Char.toUpper
  by_cases h : c.toNat ≥ 97 ∧ c.toNat ≤ 122
  · have hv : (c.toNat - 32).isValidChar := by
      unfold Nat.isValidChar
      omega
    have h2 : ¬((Char.ofNat (c.toNat - 32)).toNat ≥ 97 ∧
        (Char.ofNat (c.toNat - 32)).toNat ≤ 122) := by
      rw [char_toNat_ofNat _ hv]
      omega
    rw [if_pos h, if_neg h2]
  · rw [if_neg h, if_neg h]

theorem length_toUpperCase (s : String) : (toUpperCase s).length = s.length := by
  cases s with
  | mk d => simp [toUpperCase, String.length]

theorem toUpperCase_idem (s : String) :
    toUpperCase (toUpperCase s) = toUpperCase s := by
  cases s with
  | mk d =>
    simp only [toUpperCase, List.map_map]
    congr 1
    exact List.map_congr_left fun c _ => char_toUpper_idem c

theorem string_length_pos (s : String) (h : s ≠ "") : 0 < s.length := by
  cases s with
  | mk d =>
    cases d with
    | nil => exact absurd rfl h
    | cons a l => simp [String.length]

/-- FiatCurrencyProvider's constructor (providers.ts lines 114-117): wrap the
external fiat code table in a `Set` and store `Math.max` over the lengths. -/
def fiatCurrencyProvider (fiatCodes : List String) : Provider where
  validCodes := jsSet fiatCodes
  maxLength := jsMax ((jsSet fiatCodes).map String.length)
  name := "Fiat Currency Provider"
  nodup := jsSet_nodup fiatCodes

/-- Failed validation of the `maxLength` option (providers.ts line 143):
given and not a positive integer. -/
def badMaxLen : Option ℚ → Bool
  | none => false
  | some m => decide (m ≤ 0) || !m.isInt

/-- Failed validation of the `percentage` option (providers.ts line 147):
given and outside `(0, 1]`. -/
def badPercentage : Option ℚ → Bool
  | none => false
  | some p => decide (p ≤ 0) || decide (1 < p)

/-- Code-selection pipeline of CryptocurrencyProvider's constructor
(providers.ts lines 155-170): dedup the source symbols, filter by length when
`maxLength` is given, then keep the prefix of `Math.floor(size * percentage)`
entries when `percentage` is given. -/
def cryptoSelect (symbols : List String) (maxLen percentage : Option ℚ) :
    List String :=
  let selected0 := jsSet symbols
  let selected1 :=
    match maxLen with
    | some m => selected0.filter (fun code => decide ((code.length : ℚ) ≤ m))
    | none => selected0
  match percentage with
  | some p => selected1.take (⌊(selected1.length : ℚ) * p⌋).toNat
  | none => selected1

theorem cryptoSelect_nodup (symbols : List String)
    (maxLen percentage : Option ℚ) :
    (cryptoSelect symbols maxLen percentage).Nodup := by
  unfold cryptoSelect
  have h0 : (jsSet symbols).Nodup := jsSet_nodup symbols
  cases maxLen with
  | none =>
    cases percentage with
    | none => exact h0
    | some p => exact List.Nodup.sublist (List.take_sublist _ _) h0
  | some m =>
    cases percentage with
    | none => exact List.Nodup.filter _ h0
    | some p =>
      exact List.Nodup.sublist (List.take_sublist _ _) (List.Nodup.filter _ h0)

/-- CryptocurrencyProvider's constructor (providers.ts lines 140-174): the
three option checks are JS `throw`s, then the selected codes and their
`Math.max` length are stored. -/
def cryptocurrencyProvider (symbols : List String)
    (maxLen percentage : Option ℚ) : Except String Provider :=
  if badMaxLen maxLen then
    Except.error "maxLength must be a positive integer"
  else if badPercentage percentage then
    Except.error "percentage must be a number between 0 and 1"
  else if maxLen.isSome && percentage.isSome then
    Except.error "Cannot specify both maxLength and percentage"
  else
    Except.ok
      { validCodes := cryptoSelect symbols maxLen percentage
        maxLength := jsMax ((cryptoSelect symbols maxLen percentage).map String.length)
        name := "Cryptocurrency Provider"
        nodup := cryptoSelect_nodup symbols maxLen percentage }

/-- Code-merging loop of MultiCurrencyProvider's constructor (providers.ts
lines 206-214): start from an empty set and add each member provider's codes
in order, skipping codes already present. -/
def multiCodes (providers : List Provider) : List String :=
  providers.foldl (fun acc P => P.validCodes.foldl addCode acc) []

theorem multiCodes_nodup (providers : List Provider) :
    (multiCodes providers).Nodup := by
  unfold multiCodes
  generalize hacc : ([] : List String) = acc
  have hnd : acc.Nodup := by rw [← hacc]; exact List.nodup_nil
  clear hacc
  induction providers generalizing acc with
  | nil => simpa
  | cons P Ps ih =>
    rw [List.foldl_cons]
    exact ih _ (foldl_addCode_nodup _ _ hnd)

/-- MultiCurrencyProvider's constructor (providers.ts lines 198-217): throw on
an empty provider list, else merge the member code sets and store `Math.max`
over the merged lengths; the name lists the member names in input order. -/
def multiCurrencyProvider (providers : List Provider) : Except String Provider :=
  if providers.length = 0 then
    Except.error "At least one provider must be specified"
  else
    Except.ok
      { validCodes := multiCodes providers
        maxLength := jsMax ((multiCodes providers).map String.length)
        name := "Multi Currency Provider (" ++
          String.intercalate ", " (providers.map Provider.name) ++ ")"
        nodup := multiCodes_nodup providers }

/-- Default refine message of createCurrencySchema (currency.ts line 53). -/
def defaultMessage (P : Provider) : String :=
  "Invalid currency code. Must be a valid currency code from " ++ P.name ++ "."

/-- JS truthiness fallback `message || defaultMessage` (currency.ts line 64):
an `undefined` message and an empty-string message are both falsy, so either
falls back to the default message. -/
def orDefault (message : Option String) (deflt : String) : String :=
  match message with
  | some m => if m = "" then deflt else m
  | none => deflt

/-- JS comparison `input.length > maxLength` performed by the zod `.max`
check, where the stored bound may be `-Infinity` (`none`). -/
def exceedsMax (maxLength : Option Nat) (n : Nat) : Bool :=
  match maxLength with
  | some m => decide (m < n)
  | none => true

/-- Text of the bound interpolated into the `.max` message. -/
def maxLengthText (maxLength : Option Nat) : String :=
  match maxLength with
  | some m => toString m
  | none => "-Infinity"

/-- Per-input behavior of the schema built by createCurrencySchema
(currency.ts lines 55-67): zod's `.min(1)`, then `.max(maxLength)`, then the
membership refine on the uppercased input, then the uppercase transform. The
result is the parsed value or the first failing check's message. -/
def validate (P : Provider) (message : Option String) (input : String) :
    Except String String :=
  if input.length < 1 then
    Except.error "Currency code cannot be empty"
  else if exceedsMax P.maxLength input.length then
    Except.error ("Currency code cannot exceed " ++ maxLengthText P.maxLength ++
      " characters")
  else if toUpperCase input ∈ P.validCodes then
    Except.ok (toUpperCase input)
  else
    Except.error (orDefault message (defaultMessage P))

/-- Provider argument accepted by createCurrencySchema: a single provider or
an ordered list of providers. -/
inductive ProviderArg where
  | one (P : Provider)
  | many (Ps : List Provider)

/-- Provider resolution of createCurrencySchema (currency.ts lines 36-48): an
array is wrapped into a MultiCurrencyProvider, a single provider is used as
given, and an omitted option falls back to the fiat provider. -/
def resolveProvider (fiat : Provider) : Option ProviderArg → Except String Provider
  | some (ProviderArg.one P) => Except.ok P
  | some (ProviderArg.many Ps) => multiCurrencyProvider Ps
  | none => Except.ok fiat

/-- Well-formedness that every provider built by this library's constructors
has, and that the data model requires of custom providers: the stored max
length is `Math.max` over the stored code lengths, and every code is a
non-empty token. -/
def Provider.WF (P : Provider) : Prop :=
  P.maxLength = jsMax (P.validCodes.map String.length) ∧
    ∀ c ∈ P.validCodes, 0 < c.length

/-- Statement that a provider's stored max length is the true maximum code
length over its resolved code set (meaningful when the set is non-empty). -/
def hasTrueMax (P : Provider) : Prop :=
  P.validCodes ≠ [] →
    ∃ m, P.maxLength = some m ∧ m ∈ P.validCodes.map String.length ∧
      ∀ c ∈ P.validCodes, c.length ≤ m

theorem hasTrueMax_of_jsMax (P : Provider)
    (h : P.maxLength = jsMax (P.validCodes.map String.length)) : hasTrueMax P := by
  intro hne
  have hne2 : P.validCodes.map String.length ≠ [] := by
    simpa using hne
  obtain ⟨m, hm⟩ := jsMax_of_ne_nil _ hne2
  refine ⟨m, by rw [h, hm], jsMax_mem _ m hm, ?_⟩
  intro c hc
  exact jsMax_le _ m hm c.length (List.mem_map_of_mem _ hc)

/-- C1: for every well-formed resolved provider and every code `c` in its
code set, validating any letter-case variant of `c` (any string whose
uppercasing equals `c`) succeeds and the validator returns the uppercased
code. -/
theorem c1_case_variants_accepted (P : Provider) (hWF : P.WF)
    (msg : Option String) (c s : String) (hc : c ∈ P.validCodes)
    (hs : toUpperCase s = c) :
    validate P msg s = Except.ok (toUpperCase c) := by
  obtain ⟨hmax, hpos⟩ := hWF
  have hlc : c.length = s.length := by
    rw [← hs]
    exact length_toUpperCase s
  have hspos : 0 < s.length := by
    rw [← hlc]
    exact hpos c hc
  have hne : P.validCodes.map String.length ≠ [] := by
    intro h0
    rw [List.map_eq_nil_iff] at h0
    rw [h0] at hc
    exact (List.not_mem_nil c) hc
  obtain ⟨m, hm⟩ := jsMax_of_ne_nil _ hne
  have hcm : c.length ≤ m := jsMax_le _ m hm c.length (List.mem_map_of_mem _ hc)
  unfold validate
  rw [hmax, hm]
  rw [if_neg (by omega : ¬ s.length < 1)]
  rw [if_neg (by simp only [exceedsMax, decide_eq_true_eq]; omega)]
  rw [hs, if_pos hc, ← hs, toUpperCase_idem]

/-- C1 witness: the fiat provider built from a one-code table accepts the
lower-case variant of its code and returns it uppercased. -/
theorem c1_witness :
    validate (fiatCurrencyProvider ["USD"]) none "usd" =
      Except.ok (toUpperCase "USD") :=
  c1_case_variants_accepted (fiatCurrencyProvider ["USD"]) ⟨rfl, by decide⟩
    none "USD" "usd" (by decide) (by decide)

/-- C2: the composite of an ordered pair of providers resolves to the plain
set union of the members' code sets — membership is exactly membership in
either member, the stored list's size is the union's size (no double
counting), and acceptance is independent of the order of the pair. -/
theorem c2_pair_union (A B : Provider) :
    ∃ M Mrev : Provider,
      multiCurrencyProvider [A, B] = Except.ok M ∧
      multiCurrencyProvider [B, A] = Except.ok Mrev ∧
      (∀ c, c ∈ M.validCodes ↔ c ∈ A.validCodes ∨ c ∈ B.validCodes) ∧
      M.validCodes.length = (A.validCodes.toFinset ∪ B.validCodes.toFinset).card ∧
      (∀ c, c ∈ M.validCodes ↔ c ∈ Mrev.validCodes) := by
  refine ⟨_, _, rfl, rfl, ?_, ?_, ?_⟩
  · intro c
    show c ∈ multiCodes [A, B] ↔ _
    simp only [multiCodes, List.foldl_cons, List.foldl_nil, mem_foldl_addCode,
      List.not_mem_nil, false_or]
  · show (multiCodes [A, B]).length = _
    have hfin : (multiCodes [A, B]).toFinset =
        A.validCodes.toFinset ∪ B.validCodes.toFinset := by
      ext x
      simp only [List.mem_toFinset, Finset.mem_union, multiCodes,
        List.foldl_cons, List.foldl_nil, mem_foldl_addCode, List.not_mem_nil,
        false_or]
    rw [← hfin, List.toFinset_card_of_nodup (multiCodes_nodup [A, B])]
  · intro c
    show c ∈ multiCodes [A, B] ↔ c ∈ multiCodes [B, A]
    simp only [multiCodes, List.foldl_cons, List.foldl_nil, mem_foldl_addCode,
      List.not_mem_nil, false_or]
    tauto

/-- C3: every provider the three constructors build stores a max length that
is the true maximum code length over its resolved code set. -/
theorem c3_maxLength_never_stale :
    (∀ src : List String, hasTrueMax (fiatCurrencyProvider src)) ∧
    (∀ (src : List String) (ml pc : Option ℚ) (P : Provider),
        cryptocurrencyProvider src ml pc = Except.ok P → hasTrueMax P) ∧
    (∀ (Ps : List Provider) (P : Provider),
        multiCurrencyProvider Ps = Except.ok P → hasTrueMax P) := by
  refine ⟨fun src => hasTrueMax_of_jsMax _ rfl, ?_, ?_⟩
  · intro src ml pc P h
    unfold cryptocurrencyProvider at h
    split_ifs at h
    injection h with h2
    subst h2
    exact hasTrueMax_of_jsMax _ rfl
  · intro Ps P h
    unfold multiCurrencyProvider at h
    split_ifs at h
    injection h with h2
    subst h2
    exact hasTrueMax_of_jsMax _ rfl

/-- C3 witness: the fiat provider built from a three-entry table (with one
duplicate) stores the true maximum length of its resolved set. -/
theorem c3_witness :
    ∃ m, (fiatCurrencyProvider ["USD", "EUR", "USD"]).maxLength = some m ∧
      m ∈ (fiatCurrencyProvider ["USD", "EUR", "USD"]).validCodes.map String.length ∧
      ∀ c ∈ (fiatCurrencyProvider ["USD", "EUR", "USD"]).validCodes, c.length ≤ m :=
  c3_maxLength_never_stale.1 ["USD", "EUR", "USD"] (by decide)

theorem isInt_iff_exists_intCast (m : ℚ) :
    m.isInt = true ↔ ∃ k : ℤ, (k : ℚ) = m := by
  unfold Rat.isInt
  rw [Nat.beq_eq_true_eq]
  constructor
  · intro h
    exact ⟨m.num, (Rat.den_eq_one_iff m).mp h⟩
  · rintro ⟨k, rfl⟩
    exact Rat.den_intCast k

theorem badMaxLen_iff (ml : Option ℚ) :
    badMaxLen ml = true ↔
      ∃ m, ml = some m ∧ (m ≤ 0 ∨ ∀ k : ℤ, (k : ℚ) ≠ m) := by
  cases ml with
  | none => simp [badMaxLen]
  | some m =>
    simp only [badMaxLen, Bool.or_eq_true, decide_eq_true_eq, Bool.not_eq_true',
      Option.some.injEq]
    constructor
    · rintro (h | h)
      · exact ⟨m, rfl, Or.inl h⟩
      · refine ⟨m, rfl, Or.inr ?_⟩
        intro k hk
        have h2 : m.isInt = true := (isInt_iff_exists_intCast m).mpr ⟨k, hk⟩
        rw [h2] at h
        exact Bool.noConfusion h
    · rintro ⟨m2, h2, h⟩
      obtain rfl : m = m2 := h2
      rcases h with h | h
      · exact Or.inl h
      · refine Or.inr ?_
        cases hcase : m.isInt with
        | false => rfl
        | true =>
          obtain ⟨k, hk⟩ := (isInt_iff_exists_intCast m).mp hcase
          exact absurd hk (h k)

theorem badPercentage_iff (pc : Option ℚ) :
    badPercentage pc = true ↔ ∃ p, pc = some p ∧ (p ≤ 0 ∨ 1 < p) := by
  cases pc with
  | none => simp [badPercentage]
  | some p => simp [badPercentage]

/-- C4: a CryptocurrencyProvider configured with only a percentage `P` in
`(0, 1]` resolves to exactly the first `floor(sourceSize * P)` codes of the
(duplicate-free) external source list, in source order. -/
theorem c4_percentage_takes_first_count (S : List String) (p : ℚ)
    (hS : S.Nodup) (hp0 : 0 < p) (hp1 : p ≤ 1) :
    ∃ P : Provider, cryptocurrencyProvider S none (some p) = Except.ok P ∧
      P.validCodes = S.take (⌊(S.length : ℚ) * p⌋).toNat := by
  have hb2 : badPercentage (some p) = false := by
    simp [badPercentage, not_le.mpr hp0, not_lt.mpr hp1]
  have hsel : cryptoSelect S none (some p) =
      S.take (⌊(S.length : ℚ) * p⌋).toNat := by
    simp only [cryptoSelect]
    rw [jsSet_eq_self S hS]
  refine ⟨{ validCodes := cryptoSelect S none (some p)
            maxLength := jsMax ((cryptoSelect S none (some p)).map String.length)
            name := "Cryptocurrency Provider"
            nodup := cryptoSelect_nodup _ _ _ }, ?_, hsel⟩
  unfold cryptocurrencyProvider
  rw [hb2]
  rfl

/-- C4 witness: half of a four-symbol source keeps exactly its first
`floor(4 * (1/2)) = 2` symbols. -/
theorem c4_witness :
    ∃ P : Provider,
      cryptocurrencyProvider ["BTC", "ETH", "XRP", "DOGE"] none (some ((1 : ℚ)/2)) =
        Except.ok P ∧
      P.validCodes = ["BTC", "ETH", "XRP", "DOGE"].take
        (⌊((["BTC", "ETH", "XRP", "DOGE"] : List String).length : ℚ) * ((1 : ℚ)/2)⌋).toNat :=
  c4_percentage_takes_first_count ["BTC", "ETH", "XRP", "DOGE"] ((1 : ℚ)/2)
    (by decide) one_half_pos one_half_lt_one.le

/-- C5 at a concrete input: a percentage of 1/4 over a three-symbol source
leaves `floor(3 * 1/4) = 0` codes, yet construction succeeds and returns a
provider whose code set is empty and whose stored max length is the
`Math.max` of an empty array (`-Infinity`, modelled `none`) — no usage error
is surfaced at construction. -/
theorem c5_empty_result_constructs :
    ∃ P : Provider,
      cryptocurrencyProvider ["BTC", "ETH", "XRP"] none (some ((1 : ℚ)/4)) =
        Except.ok P ∧
      P.validCodes = [] ∧ P.maxLength = none := by
  have hb2 : badPercentage (some ((1 : ℚ)/4)) = false := by
    have h1 : ¬ ((1 : ℚ)/4 ≤ 0) := by norm_num
    have h2 : ¬ ((1 : ℚ) < 1/4) := by norm_num
    simp only [badPercentage, Bool.or_eq_false_iff, decide_eq_false_iff_not]
    exact ⟨h1, h2⟩
  have hjs : jsSet ["BTC", "ETH", "XRP"] = ["BTC", "ETH", "XRP"] := rfl
  have hfloor : ⌊((jsSet ["BTC", "ETH", "XRP"]).length : ℚ) * ((1 : ℚ)/4)⌋ = 0 := by
    rw [hjs]
    rw [Int.floor_eq_zero_iff]
    constructor <;> norm_num
  have hsel : cryptoSelect ["BTC", "ETH", "XRP"] none (some ((1 : ℚ)/4)) = [] := by
    simp only [cryptoSelect]
    rw [hfloor]
    rfl
  refine ⟨{ validCodes := cryptoSelect ["BTC", "ETH", "XRP"] none (some ((1 : ℚ)/4))
            maxLength := jsMax ((cryptoSelect ["BTC", "ETH", "XRP"] none
              (some ((1 : ℚ)/4))).map String.length)
            name := "Cryptocurrency Provider"
            nodup := cryptoSelect_nodup _ _ _ }, ?_, hsel, ?_⟩
  · unfold cryptocurrencyProvider
    rw [hb2]
    rfl
  · show jsMax ((cryptoSelect ["BTC", "ETH", "XRP"] none
      (some ((1 : ℚ)/4))).map String.length) = none
    rw [hsel]
    rfl

/-- C6: provider construction throws exactly under the claimed
configurations — CryptocurrencyProvider errors iff both filters are given,
or the given max length is not a positive integer, or the given percentage
is outside `(0, 1]`; MultiCurrencyProvider errors iff its provider list is
empty. The errors are raised by the constructors themselves. -/
theorem c6_construction_errors :
    (∀ (src : List String) (ml pc : Option ℚ),
        (∃ e, cryptocurrencyProvider src ml pc = Except.error e) ↔
          ((ml.isSome = true ∧ pc.isSome = true) ∨
            (∃ m, ml = some m ∧ (m ≤ 0 ∨ ∀ k : ℤ, (k : ℚ) ≠ m)) ∨
            (∃ p, pc = some p ∧ (p ≤ 0 ∨ 1 < p)))) ∧
    (∀ Ps : List Provider,
        (∃ e, multiCurrencyProvider Ps = Except.error e) ↔ Ps = []) := by
  constructor
  · intro src ml pc
    unfold cryptocurrencyProvider
    by_cases h1 : badMaxLen ml = true
    · rw [if_pos h1]
      constructor
      · intro _
        exact Or.inr (Or.inl ((badMaxLen_iff ml).mp h1))
      · intro _
        exact ⟨_, rfl⟩
    · rw [if_neg h1]
      by_cases h2 : badPercentage pc = true
      · rw [if_pos h2]
        constructor
        · intro _
          exact Or.inr (Or.inr ((badPercentage_iff pc).mp h2))
        · intro _
          exact ⟨_, rfl⟩
      · rw [if_neg h2]
        by_cases h3 : (ml.isSome && pc.isSome) = true
        · rw [if_pos h3]
          constructor
          · intro _
            exact Or.inl (by simpa [Bool.and_eq_true] using h3)
          · intro _
            exact ⟨_, rfl⟩
        · rw [if_neg h3]
          constructor
          · rintro ⟨e, he⟩
            exact Except.noConfusion he
          · rintro (hboth | hm | hp)
            · exact absurd (by simp [hboth.1, hboth.2]) h3
            · exact absurd ((badMaxLen_iff ml).mpr hm) h1
            · exact absurd ((badPercentage_iff pc).mpr hp) h2
  · intro Ps
    unfold multiCurrencyProvider
    by_cases h : Ps.length = 0
    · rw [if_pos h]
      rw [List.length_eq_zero] at h
      simp [h]
    · rw [if_neg h]
      constructor
      · rintro ⟨e, he⟩
        exact Except.noConfusion he
      · intro h2
        exact absurd (by simp [h2]) h

/-- C7 counterexample: with the custom message `""` supplied by the caller,
the in-bound unknown code `"BTC"` is reported with the provider-naming
default message, not with the supplied custom message — the `||` fallback of
currency.ts line 64 treats the empty string as falsy. -/
theorem c7_counterexample :
    validate (fiatCurrencyProvider ["USD"]) (some "") "BTC" =
      Except.error (defaultMessage (fiatCurrencyProvider ["USD"])) ∧
    defaultMessage (fiatCurrencyProvider ["USD"]) ≠ "" :=
  ⟨rfl, by decide⟩

/-- C7 (amended): a non-empty input within the provider's max length whose
uppercased form is not in the code set fails the refine step, and the failure
message is the caller-supplied custom message when a non-empty one was given,
else (message omitted or empty) the default message naming the provider. -/
theorem c7_unknown_code_fails (P : Provider) (msg : Option String) (s : String)
    (m : Nat) (hs : s ≠ "") (hm : P.maxLength = some m) (hlen : s.length ≤ m)
    (hmem : toUpperCase s ∉ P.validCodes) :
    validate P msg s = Except.error (orDefault msg (defaultMessage P)) := by
  have hpos : 0 < s.length := string_length_pos s hs
  unfold validate
  rw [hm]
  rw [if_neg (by omega : ¬ s.length < 1)]
  rw [if_neg (by simp only [exceedsMax, decide_eq_true_eq]; omega)]
  rw [if_neg hmem]

/-- C7 witness: an unknown code within the length bound fails with the
supplied custom message. -/
theorem c7_witness :
    validate (fiatCurrencyProvider ["USD"]) (some "Nope") "BTC" =
      Except.error "Nope" :=
  c7_unknown_code_fails (fiatCurrencyProvider ["USD"]) (some "Nope") "BTC" 3
    (by decide) rfl (by decide) (by decide)

/-- C8: the length gates of the pipeline — the empty string always fails
with the fixed empty-string message, and any input longer than the
provider's max length fails with the message naming that bound, regardless
of the input's content. -/
theorem c8_length_gates :
    (∀ (P : Provider) (msg : Option String),
        validate P msg "" = Except.error "Currency code cannot be empty") ∧
    (∀ (P : Provider) (msg : Option String) (s : String) (m : Nat),
        P.maxLength = some m → m < s.length →
        validate P msg s =
          Except.error ("Currency code cannot exceed " ++ toString m ++
            " characters")) := by
  constructor
  · intro P msg
    unfold validate
    rw [if_pos (by decide : "".length < 1)]
  · intro P msg s m hm hlt
    unfold validate
    rw [hm]
    rw [if_neg (by omega : ¬ s.length < 1)]
    rw [if_pos (by simp only [exceedsMax, decide_eq_true_eq]; omega)]
    rfl

/-- C8 witness: the empty string and an over-long string fail with the fixed
empty-string message and the bound-naming message respectively. -/
theorem c8_witness :
    validate (fiatCurrencyProvider ["USD"]) none "" =
      Except.error "Currency code cannot be empty" ∧
    validate (fiatCurrencyProvider ["USD"]) none "ABCD" =
      Except.error ("Currency code cannot exceed " ++ toString 3 ++
        " characters") :=
  ⟨c8_length_gates.1 (fiatCurrencyProvider ["USD"]) none,
    c8_length_gates.2 (fiatCurrencyProvider ["USD"]) none "ABCD" 3 rfl
      (by decide)⟩

/-- C9: whenever validation succeeds, the returned string is itself a member
of the provider's code set and is fully uppercase (a fixed point of
uppercasing), since the membership test runs on the uppercased input, which
is also the returned value. -/
theorem c9_success_returns_member (P : Provider) (msg : Option String)
    (s r : String) (h : validate P msg s = Except.ok r) :
    r ∈ P.validCodes ∧ toUpperCase r = r := by
  unfold validate at h
  split_ifs at h with h1 h2 h3
  injection h with h4
  subst h4
  exact ⟨h3, toUpperCase_idem s⟩

/-- C9 witness: the successful validation of `"usd"` against a one-code fiat
table returns a set member that is a fixed point of uppercasing. -/
theorem c9_witness :
    "USD" ∈ (fiatCurrencyProvider ["USD"]).validCodes ∧
      toUpperCase "USD" = "USD" :=
  c9_success_returns_member (fiatCurrencyProvider ["USD"]) none "usd" "USD" rfl

/-- C10: composing a single provider is the identity up to naming — the
composite of `[A]` succeeds, its code set is exactly `A`'s code set (same
list), and its stored max length is the `Math.max` of the lengths of `A`'s
codes, hence the true maximum code length of `A`'s set whenever that set is
non-empty. -/
theorem c10_singleton_composite (A : Provider) :
    ∃ M : Provider, multiCurrencyProvider [A] = Except.ok M ∧
      M.validCodes = A.validCodes ∧
      M.maxLength = jsMax (A.validCodes.map String.length) ∧
      hasTrueMax M := by
  have hcodes : multiCodes [A] = A.validCodes :=
    jsSet_eq_self A.validCodes A.nodup
  refine ⟨_, rfl, hcodes, ?_, hasTrueMax_of_jsMax _ rfl⟩
  exact congrArg (fun l => jsMax (l.map String.length)) hcodes
